import Mathlib

/-!
Shallow embedding of the incremental wiki build pipeline from `src/lib.rs`
(`Wiki::read_from_directory`, `Wiki::read_file_hash`, `Wiki::write_file_hash`,
`Wiki::get_file_hash`, `Wiki::check_hash_currency`,
`Wiki::read_content_from_current_paths`, `Wiki::create_index_tree`).

Paths and file contents read as text are modelled as `List Char`; raw file
bytes are modelled as `List Nat` (each byte `< 256` for real files).  The
filesystem is abstracted by explicit parameters: a read function
`List Char → Option (List Nat)` (`none` = the read fails), a canonicalization
function `List Char → Option (List Char)` (`none` = `canonicalize` fails), and
the current content of the ledger file as an `Option (List Char)` (`none` =
the ledger file cannot be opened).  A Rust panic (out-of-bounds index) is
modelled as a distinguished outcome, never as a defined result.
-/

set_option maxRecDepth 100000

deriving instance DecidableEq for Except

namespace Wiki

/-! ### Rust string primitives

`str::replace(pat, rep)` replaces every non-overlapping occurrence of `pat`,
scanning left to right.  The pattern is non-empty at both call sites in the
source (`input_root_str_n + MAIN_SEPARATOR` and `".md"`), so the model takes
the pattern as `p :: ps`.  The recursion consumes at least one character per
step; it is driven by a fuel argument equal to the string length so that the
definition is structural and evaluates by `decide`. -/

def replaceAllGo (p : Char) (ps rep : List Char) : Nat → List Char → List Char
  | _, [] => []
  | 0, s => s
  | fuel + 1, c :: rest =>
    if (p :: ps).isPrefixOf (c :: rest) then
      rep ++ replaceAllGo p ps rep fuel (rest.drop ps.length)
    else
      c :: replaceAllGo p ps rep fuel rest

def replaceAll (p : Char) (ps rep s : List Char) : List Char :=
  replaceAllGo p ps rep s.length s

/-- `str::replace` for an arbitrary pattern; on the empty pattern (never used
by the source) the model leaves the string unchanged. -/
def replaceAllStr (pat rep s : List Char) : List Char :=
  match pat with
  | [] => s
  | p :: ps => replaceAll p ps rep s

/-- `BufReader::lines`: splits on `'\n'`; the final fragment is a line only
when non-empty (`"a\nb\n"` has lines `a`, `b`; `"a\nb"` has lines `a`, `b`;
`""` has none).  `cur` is the reversed accumulator of the current line. -/
def linesGo : List Char → List Char → List (List Char)
  | cur, [] => if cur.isEmpty then [] else [cur.reverse]
  | cur, c :: rest =>
    if c = '\n' then cur.reverse :: linesGo [] rest else linesGo (c :: cur) rest

def rustLines (s : List Char) : List (List Char) :=
  linesGo [] s

/-- `str::split(':')`: always yields at least one field; `""` yields `[""]`. -/
def splitGo : List Char → List Char → List (List Char)
  | cur, [] => [cur.reverse]
  | cur, c :: rest =>
    if c = ':' then cur.reverse :: splitGo [] rest else splitGo (c :: cur) rest

def splitColon (s : List Char) : List (List Char) :=
  splitGo [] s

/-! ### SHA-1 (`sha_1::Sha1`) and the hash rendering of `Wiki::get_file_hash` -/

def m32 : Nat := 4294967296

def rotl (k n : Nat) : Nat :=
  ((n <<< k) ||| (n >>> (32 - k))) % m32

/-- Big-endian 32-bit words from the byte stream (the padded message length is
a multiple of 4, so the `_` fallback is never hit on padded input). -/
def bytesToWords : List Nat → List Nat
  | b0 :: b1 :: b2 :: b3 :: rest =>
    ((b0 <<< 24) ||| (b1 <<< 16) ||| (b2 <<< 8) ||| b3) :: bytesToWords rest
  | _ => []

/-- Extend 16 schedule words to 80: each new word is
`rotl 1 (w[i-3] xor w[i-8] xor w[i-14] xor w[i-16])`. -/
def extendW : Nat → List Nat → List Nat
  | 0, w => w
  | fuel + 1, w =>
    extendW fuel
      (w ++ [rotl 1 (((w.getD (w.length - 3) 0) ^^^ (w.getD (w.length - 8) 0)) ^^^
        ((w.getD (w.length - 14) 0) ^^^ (w.getD (w.length - 16) 0)))])

def sha1Round (w : List Nat) (st : Nat × Nat × Nat × Nat × Nat) (i : Nat) :
    Nat × Nat × Nat × Nat × Nat :=
  let a := st.1
  let b := st.2.1
  let c := st.2.2.1
  let d := st.2.2.2.1
  let e := st.2.2.2.2
  let f :=
    if i < 20 then (b &&& c) ||| ((b ^^^ 4294967295) &&& d)
    else if i < 40 then (b ^^^ c) ^^^ d
    else if i < 60 then ((b &&& c) ||| (b &&& d)) ||| (c &&& d)
    else (b ^^^ c) ^^^ d
  let k :=
    if i < 20 then 1518500249
    else if i < 40 then 1859775393
    else if i < 60 then 2400959708
    else 3395469782
  let temp := (rotl 5 a + f + e + k + w.getD i 0) % m32
  (temp, a, rotl 30 b, c, d)

def sha1Compress (h : Nat × Nat × Nat × Nat × Nat) (block : List Nat) :
    Nat × Nat × Nat × Nat × Nat :=
  let w := extendW 64 (bytesToWords block)
  let r := (List.range 80).foldl (sha1Round w) h
  ((h.1 + r.1) % m32, (h.2.1 + r.2.1) % m32, (h.2.2.1 + r.2.2.1) % m32,
    (h.2.2.2.1 + r.2.2.2.1) % m32, (h.2.2.2.2 + r.2.2.2.2) % m32)

/-- Process the padded message in 64-byte blocks (fuel = message length). -/
def sha1Blocks : Nat → (Nat × Nat × Nat × Nat × Nat) → List Nat →
    Nat × Nat × Nat × Nat × Nat
  | _, h, [] => h
  | 0, h, _ => h
  | fuel + 1, h, msg => sha1Blocks fuel (sha1Compress h (msg.take 64)) (msg.drop 64)

/-- Big-endian byte rendering of a value on `k` bytes. -/
def beBytes : Nat → Nat → List Nat
  | 0, _ => []
  | k + 1, v => ((v >>> (8 * k)) % 256) :: beBytes k v

/-- Merkle–Damgård padding: `0x80`, zeros to 56 mod 64, 64-bit bit length. -/
def sha1Pad (msg : List Nat) : List Nat :=
  msg ++ [128] ++ List.replicate ((119 - msg.length % 64) % 64) 0 ++
    beBytes 8 (msg.length * 8)

def sha1 (msg : List Nat) : List Nat :=
  let p := sha1Pad msg
  let h := sha1Blocks p.length (1732584193, 4023233417, 2562383102, 271733878, 3285377520) p
  beBytes 4 h.1 ++ beBytes 4 h.2.1 ++ beBytes 4 h.2.2.1 ++ beBytes 4 h.2.2.2.1 ++
    beBytes 4 h.2.2.2.2

def hexDigit (n : Nat) : Char :=
  "0123456789abcdef".toList.getD n '0'

/-- `format!("\x7b:x\x7d", byte)`: minimal-width lowercase hex, no zero
padding — a byte below 16 renders as a single digit. -/
def hexMin (n : Nat) : List Char :=
  if n < 16 then [hexDigit n] else [hexDigit (n / 16), hexDigit (n % 16)]

/-- `Wiki::get_file_hash` (lines 152–169): SHA-1 over the file bytes, each
digest byte rendered with `format!("\x7b:x\x7d", hash_byte)` and concatenated.
The model takes the already-read file bytes (the source re-reads the file and
propagates a read error; the pipeline model below reads each file once). -/
def get_file_hash (content : List Nat) : List Char :=
  ((sha1 content).map hexMin).flatten

/-! ### The ledger file (`Wiki::read_file_hash`, `Wiki::write_file_hash`)

The ledger file holds one `<hash>:<path>` line per input file.  Reading scans
the lines in order; on each line `sha_args = line.split(':')` and the source
indexes `sha_args[1]` without a bounds check, which panics when the line has
no `':'`.  The panic is modelled as `Except.error ()`. -/

def lookupLines : List (List Char) → List Char → Except Unit (Option (List Char))
  | [], _ => .ok none
  | l :: ls, file =>
    match splitColon l with
    | a0 :: a1 :: _ => if a1 = file then .ok (some a0) else lookupLines ls file
    | _ => .error ()

/-- `Wiki::read_file_hash` (lines 105–127).  `shaContent = none` models a
ledger file that cannot be opened (result `None`, lines 106–109). -/
def read_file_hash (shaContent : Option (List Char)) (file : List Char) :
    Except Unit (Option (List Char)) :=
  match shaContent with
  | none => .ok none
  | some content => lookupLines (rustLines content) file

/-- `Wiki::write_file_hash` (lines 130–149): the produced file content.
Entries are `(path, hash)` pairs in `input_paths` order; each line is
`<hash>:<path>` terminated by `'\n'`. -/
def write_file_hash (entries : List (List Char × List Char)) : List Char :=
  (entries.map fun e => e.2 ++ ':' :: e.1 ++ ['\n']).flatten

/-- `Wiki::check_hash_currency` (lines 173–193), for a document whose content
was read successfully: compute the current hash, look up the stored hash; the
result is `Ok` exactly when a stored hash is found and equals the current one,
and otherwise `Err` carrying the current hash.  A panic inside
`read_file_hash` (unparseable ledger line) is propagated as `none`. -/
def check_hash_currency (shaContent : Option (List Char)) (file : List Char)
    (content : List Nat) : Option (Except (List Char) (List Char)) :=
  let current := get_file_hash content
  match read_file_hash shaContent file with
  | .error () => none
  | .ok (some stored) =>
    if current ≠ stored then some (.error current) else some (.ok current)
  | .ok none => some (.error current)

/-- Spec-side description of the ledger lookup: the hash field of the first
line whose second colon-separated field equals the queried path. -/
def firstMatchHash : List (List Char) → List Char → Option (List Char)
  | [], _ => none
  | l :: ls, file =>
    match splitColon l with
    | a0 :: a1 :: _ => if a1 = file then some a0 else firstMatchHash ls file
    | _ => firstMatchHash ls file

/-! ### Path mapping (lines 218–248)

The source canonicalizes the file path and the input root, appends
`MAIN_SEPARATOR` to the root, and then derives the output path by two plain
string replacements on the canonical file path:
`.replace(input_root_str_n, "").replace(".md", ".html")`.
The model takes the canonical forms as inputs (canonicalization itself is a
filesystem operation, abstracted as a parameter of the pipeline model). -/

def mainSeparator : Char := '/'

def mapOutput (file_str_n input_root_str_n : List Char) : List Char :=
  replaceAllStr ".md".toList ".html".toList
    (replaceAllStr (input_root_str_n ++ [mainSeparator]) [] file_str_n)

/-! ### The processing loop (`Wiki::read_content_from_current_paths`, lines 196–274) -/

inductive RunError
  /-- `File::open` / `read_to_string` of a source file failed (line 213–215). -/
  | readFail (p : List Char)
  /-- `canonicalize` of the file path or of the input root failed (222, 225). -/
  | canonFail (p : List Char)
  /-- `output_path.parent()` returned `None` (line 247). -/
  | parentFail (p : List Char)
  /-- the unguarded `sha_args[1]` index in `read_file_hash` panicked. -/
  | ledgerPanic (p : List Char)
deriving DecidableEq

structure RunResult where
  /-- `self.output_paths` as pushed during the loop (one push per file, in both
  the fresh and the stale branch, line 265). -/
  outputPaths : List (List Char)
  /-- the `(path, hash)` pairs of `self.input_paths` after the loop mutated
  each `file.hash` (lines 253 and 258). -/
  hashes : List (List Char × List Char)
  /-- the output paths whose HTML file was (re)created this run (stale branch
  only, lines 259–262). -/
  written : List (List Char)
  /-- the content written to the ledger file at the end (line 271). -/
  ledgerOut : List Char
deriving DecidableEq

/-- One iteration of the loop body for one input file: returns the derived
output path, the hash stored into `file.hash`, and whether the document was
re-rendered (`true` = stale branch).  Any failure is the `Err` that the
enclosing function propagates with `?`, aborting the whole loop. -/
def processDoc (canon : List Char → Option (List Char))
    (readF : List Char → Option (List Nat)) (sha : Option (List Char))
    (root file : List Char) : Except RunError (List Char × List Char × Bool) :=
  match readF file with
  | none => .error (.readFail file)
  | some content =>
    match canon file with
    | none => .error (.canonFail file)
    | some fileN =>
      match canon root with
      | none => .error (.canonFail root)
      | some rootN =>
        if mapOutput fileN rootN = [] then .error (.parentFail file)
        else
          match check_hash_currency sha file content with
          | none => .error (.ledgerPanic file)
          | some (.ok h) => .ok (mapOutput fileN rootN, h, false)
          | some (.error h) => .ok (mapOutput fileN rootN, h, true)

/-- The `for file in &mut self.input_paths` loop: sequential, aborting at the
first failing document (every failure path in the body uses `?` or `bail!`). -/
def processLoop (canon : List Char → Option (List Char))
    (readF : List Char → Option (List Nat)) (sha : Option (List Char))
    (root : List Char) :
    List (List Char) →
      Except RunError (List (List Char) × List (List Char × List Char) × List (List Char))
  | [] => .ok ([], [], [])
  | f :: fs =>
    match processDoc canon readF sha root f with
    | .error e => .error e
    | .ok (out, h, rendered) =>
      match processLoop canon readF sha root fs with
      | .error e => .error e
      | .ok (outs, hs, ws) =>
        .ok (out :: outs, (f, h) :: hs, if rendered then out :: ws else ws)

/-- `Wiki::read_content_from_current_paths` (lines 196–274): run the loop over
all discovered inputs, then write the ledger built from the mutated hashes. -/
def read_content_from_current_paths (canon : List Char → Option (List Char))
    (readF : List Char → Option (List Nat)) (sha : Option (List Char))
    (root : List Char) (inputs : List (List Char)) : Except RunError RunResult :=
  match processLoop canon readF sha root inputs with
  | .error e => .error e
  | .ok (outs, hs, ws) => .ok ⟨outs, hs, ws, write_file_hash hs⟩

/-! ### Discovery (`Wiki::read_from_directory`, lines 75–93) -/

/-- The `for entry in glob(..)` push loop: each glob item either yields a path
or is an `Err` entry whose `?` aborts the loop, keeping the pushes so far. -/
def pushLoop : List (List Char) → List (Option (List Char)) →
    List (List Char) × Except Unit Unit
  | st, [] => (st, .ok ())
  | st, some e :: rest => pushLoop (st ++ [e]) rest
  | st, none :: _ => (st, .error ())

/-- `Wiki::read_from_directory`: `self.input_paths.clear()` runs first (line
77), then the directory check (`bail!` at line 82), then the glob push loop.
`st` is the `input_paths` state before the call; it is discarded by the
clear, which is the point of claim C10. -/
def read_from_directory (isDir : Bool) (entries : List (Option (List Char)))
    (_st : List (List Char)) : List (List Char) × Except Unit Unit :=
  let cleared : List (List Char) := []
  if !isDir then (cleared, .error ()) else pushLoop cleared entries

/-! ### Index generation (`Wiki::create_index_tree`, lines 277–297) -/

/-- `Path::file_name` for the paths at hand: the final component after the
last separator (every collected output path ends in `.html`, so the special
`None` cases of `file_name` show up as an empty result here). -/
def fileName (p : List Char) : List Char :=
  (p.reverse.takeWhile fun c => c ≠ mainSeparator).reverse

/-- One generated list item:
`<li><a href="{output_path}">{file_name}</a></li>` plus newline (line 285). -/
def liHtml (o : List Char) : List Char :=
  "<li><a href=\"".toList ++ o ++ "\">".toList ++ fileName o ++ "</a></li>\n".toList

/-- The item for one output path; `none` models the `ok_or_else` error when
the path has no file name (line 289). -/
def liItem (o : List Char) : Option (List Char) :=
  if fileName o = [] then none else some (liHtml o)

def liList : List (List Char) → Option (List Char)
  | [] => some []
  | o :: os =>
    match liItem o, liList os with
    | some x, some r => some (x ++ r)
    | _, _ => none

/-- `Wiki::create_index_tree`: does nothing when `index.html` already exists
(`.ok none`); otherwise writes the fixed template followed by one list item
per collected output path (`.ok (some content)`).  The template file is not
part of the sources under scrutiny, so its content is a parameter. -/
def create_index_tree (indexExists : Bool) (template : List Char)
    (outputPaths : List (List Char)) : Except Unit (Option (List Char)) :=
  if indexExists then .ok none
  else
    match liList outputPaths with
    | none => .error ()
    | some items => .ok (some (template ++ items))

/-! ## Supporting lemmas on the string primitives -/

theorem linesGo_append (l t : List Char) (h : '\n' ∉ l) :
    ∀ cur, linesGo cur (l ++ '\n' :: t) = (cur.reverse ++ l) :: linesGo [] t := by
  induction l with
  | nil =>
    intro cur
    simp [linesGo]
  | cons c l ih =>
    intro cur
    have hc : ¬c = '\n' := fun hh => h (hh ▸ List.mem_cons_self c l)
    have hl : '\n' ∉ l := fun hh => h (List.mem_cons_of_mem c hh)
    simp only [List.cons_append, linesGo, if_neg hc, List.append_eq]
    rw [ih hl (c :: cur)]
    simp

/-- A newline-free line followed by `'\n'` is the first line of the content. -/
theorem rustLines_cons (l t : List Char) (h : '\n' ∉ l) :
    rustLines (l ++ '\n' :: t) = l :: rustLines t := by
  unfold rustLines
  rw [linesGo_append l t h]
  simp

theorem splitGo_append (l t : List Char) (h : ':' ∉ l) :
    ∀ cur, splitGo cur (l ++ ':' :: t) = (cur.reverse ++ l) :: splitGo [] t := by
  induction l with
  | nil =>
    intro cur
    simp [splitGo]
  | cons c l ih =>
    intro cur
    have hc : ¬c = ':' := fun hh => h (hh ▸ List.mem_cons_self c l)
    have hl : ':' ∉ l := fun hh => h (List.mem_cons_of_mem c hh)
    simp only [List.cons_append, splitGo, if_neg hc, List.append_eq]
    rw [ih hl (c :: cur)]
    simp

theorem splitGo_no_colon (l : List Char) (h : ':' ∉ l) :
    ∀ cur, splitGo cur l = [cur.reverse ++ l] := by
  induction l with
  | nil =>
    intro cur
    simp [splitGo]
  | cons c l ih =>
    intro cur
    have hc : ¬c = ':' := fun hh => h (hh ▸ List.mem_cons_self c l)
    have hl : ':' ∉ l := fun hh => h (List.mem_cons_of_mem c hh)
    simp only [splitGo, if_neg hc]
    rw [ih hl (c :: cur)]
    simp

/-- Splitting `<hash>:<path>` with colon-free fields gives the two fields. -/
theorem splitColon_pair (g q : List Char) (hg : ':' ∉ g) (hq : ':' ∉ q) :
    splitColon (g ++ ':' :: q) = [g, q] := by
  unfold splitColon
  rw [splitGo_append g q hg, splitGo_no_colon q hq]
  simp

theorem splitGo_ne_nil : ∀ (s cur : List Char), splitGo cur s ≠ [] := by
  intro s
  induction s with
  | nil => intro cur; simp [splitGo]
  | cons c rest ih =>
    intro cur
    by_cases hc : c = ':'
    · simp [splitGo, hc]
    · simp only [splitGo, if_neg hc]
      exact ih (c :: cur)

/-- A line containing `':'` splits into at least two fields. -/
theorem splitColon_two_of_colon : ∀ l : List Char, ':' ∈ l →
    ∃ a b tl, splitColon l = a :: b :: tl := by
  have go : ∀ (s cur : List Char), ':' ∈ s → ∃ a b tl, splitGo cur s = a :: b :: tl := by
    intro s
    induction s with
    | nil => intro cur hm; cases hm
    | cons c rest ih =>
      intro cur hm
      by_cases hc : c = ':'
      · refine ⟨cur.reverse, ?_⟩
        rcases hr : splitGo ([] : List Char) rest with _ | ⟨b, tl⟩
        · exact absurd hr (splitGo_ne_nil rest [])
        · exact ⟨b, tl, by simp [splitGo, hc, hr]⟩
      · have hrest : ':' ∈ rest := by
          rcases List.mem_cons.mp hm with h1 | h1
          · exact absurd h1.symm hc
          · exact h1
        obtain ⟨a, b, tl, hab⟩ := ih (c :: cur) hrest
        exact ⟨a, b, tl, by simp only [splitGo, if_neg hc]; exact hab⟩
  intro l hm
  exact go l [] hm

theorem read_file_hash_some (content file : List Char) :
    read_file_hash (some content) file = lookupLines (rustLines content) file := rfl

/-- On a ledger whose lines each contain a `':'`, the scan never hits the
out-of-bounds index and computes the first-match lookup. -/
theorem lookupLines_wf (file : List Char) :
    ∀ lines : List (List Char), (∀ l ∈ lines, ':' ∈ l) →
      lookupLines lines file = .ok (firstMatchHash lines file) := by
  intro lines
  induction lines with
  | nil => intro _; rfl
  | cons l ls ih =>
    intro h
    obtain ⟨a, b, tl, hs⟩ := splitColon_two_of_colon l (h l (List.mem_cons_self l ls))
    by_cases hb : b = file
    · simp [lookupLines, firstMatchHash, hs, hb]
    · simp only [lookupLines, firstMatchHash, hs, if_neg hb]
      exact ih fun x hx => h x (List.mem_cons_of_mem l hx)

/-! ## Claim C8 -/

/-- C8: for every ledger file in which every line contains at least one `':'`,
`read_file_hash` never panics: it returns the hash field of the first line
whose second colon-separated field equals the queried path (`none` when no
line matches).  The unguarded `sha_args[1]` access is in bounds only under
this precondition: on the one-line ledger `"x"` (no colon) the lookup of any
path panics, modelled as `.error ()`. -/
theorem c8_read_file_hash_safe :
    (∀ content file : List Char, (∀ l ∈ rustLines content, ':' ∈ l) →
      read_file_hash (some content) file = .ok (firstMatchHash (rustLines content) file)) ∧
    read_file_hash (some ['x']) ['p'] = .error () := by
  constructor
  · intro content file h
    exact lookupLines_wf file (rustLines content) h
  · decide

/-- Witness for C8: the theorem applied to the well-formed one-line ledger
`"h:p"` and the path `"p"`. -/
theorem c8_witness : read_file_hash (some "h:p".toList) ['p'] = .ok (some ['h']) := by
  rw [c8_read_file_hash_safe.1 "h:p".toList ['p'] (by decide)]
  decide

/-! ## Claim C2 -/

/-- C2 (amended): for a document whose read and canonicalization succeed and
whose mapped output path is non-empty, and for every ledger state whose lines
each contain a `':'` (every ledger this program writes is of that shape, and a
missing ledger file is the `shaContent = none` case handled separately by
`read_file_hash`), the document is classified FRESH — `processDoc` succeeds
with `rendered = false`, i.e. `check_hash_currency` returned `Ok` and the
stale branch is skipped — if and only if the ledger lookup finds a stored
hash equal to the hash freshly computed from the document's current content.
In every other case of such a ledger the document is processed as STALE. -/
theorem c2_fresh_iff_ledger_match
    (canon : List Char → Option (List Char)) (readF : List Char → Option (List Nat))
    (s root p pN rootN : List Char) (c : List Nat)
    (hrf : readF p = some c) (hcp : canon p = some pN) (hcr : canon root = some rootN)
    (hout : mapOutput pN rootN ≠ [])
    (hwf : ∀ l ∈ rustLines s, ':' ∈ l) :
    (∃ o h, processDoc canon readF (some s) root p = .ok (o, h, false)) ↔
      read_file_hash (some s) p = .ok (some (get_file_hash c)) := by
  have hrd : read_file_hash (some s) p = .ok (firstMatchHash (rustLines s) p) :=
    lookupLines_wf p (rustLines s) hwf
  simp only [processDoc, hrf, hcp, hcr, if_neg hout, check_hash_currency,
    read_file_hash_some] at hrd ⊢
  rw [hrd]
  cases hm : firstMatchHash (rustLines s) p with
  | none => simp
  | some stored =>
    by_cases hst : get_file_hash c = stored
    · simp [hst]
    · simp [hst, Ne.symm hst]

/-- Counterexample for C2 as stated: a ledger state whose first line `"x"` is
colon-free while its second line stores exactly the current hash of the
document `"p"` (content `[]`).  The ledger contains a matching entry for the
path — the right-hand side of the claimed equivalence — yet the document is
not classified FRESH (nor STALE): `check_hash_currency` panics on the first
line, modelled as `none`. -/
theorem c2_counterexample :
    check_hash_currency
        (some "x\nda39a3ee5e6b4bd3255bfef95601890afd879:p\n".toList) ['p'] [] = none ∧
    firstMatchHash (rustLines "x\nda39a3ee5e6b4bd3255bfef95601890afd879:p\n".toList) ['p'] =
      some (get_file_hash []) := by
  constructor
  · decide
  · decide

/-- Witness for C2 (amended): a concrete FRESH classification, with the ledger
holding exactly the current hash of the document. -/
theorem c2_witness :
    ∃ o h, processDoc (fun x => some x) (fun _ => some ([] : List Nat))
      (some "da39a3ee5e6b4bd3255bfef95601890afd879:/r/a.md\n".toList)
      "/r".toList "/r/a.md".toList = .ok (o, h, false) :=
  (c2_fresh_iff_ledger_match (fun x => some x) (fun _ => some ([] : List Nat))
    _ _ _ _ _ _ rfl rfl rfl (by decide) (by decide)).mpr (by decide)

/-! ## Claim C4 -/

/-- C4 (amended): the ledger survives a save/load round trip for every mapping
of `(path, hash)` entries whose paths contain neither `':'` nor a newline AND
whose hashes contain neither `':'` nor a newline (every hash the program
itself produces is lowercase hex, hence satisfies this; a hash containing
`':'` or a newline breaks the unescaped line format, see the counterexample). -/
theorem c4_round_trip (entries : List (List Char × List Char))
    (hnd : (entries.map Prod.fst).Nodup)
    (hfree : ∀ e ∈ entries, (':' ∉ e.1 ∧ '\n' ∉ e.1) ∧ ':' ∉ e.2 ∧ '\n' ∉ e.2)
    (p h : List Char) (hmem : (p, h) ∈ entries) :
    read_file_hash (some (write_file_hash entries)) p = .ok (some h) := by
  induction entries with
  | nil => cases hmem
  | cons e rest ih =>
    obtain ⟨q, g⟩ := e
    obtain ⟨⟨hqc, hqn⟩, hgc, hgn⟩ := hfree (q, g) (List.mem_cons_self _ _)
    have hw : write_file_hash ((q, g) :: rest) =
        (g ++ ':' :: q) ++ '\n' :: write_file_hash rest := by
      simp [write_file_hash]
    have hnl : '\n' ∉ g ++ ':' :: q := by
      intro hx
      rcases List.mem_append.mp hx with hx | hx
      · exact hgn hx
      · rcases List.mem_cons.mp hx with hx | hx
        · exact absurd hx (by decide)
        · exact hqn hx
    have hlines : rustLines (write_file_hash ((q, g) :: rest)) =
        (g ++ ':' :: q) :: rustLines (write_file_hash rest) := by
      rw [hw]
      exact rustLines_cons _ _ hnl
    rw [read_file_hash_some, hlines]
    simp only [lookupLines, splitColon_pair g q hgc hqc]
    rcases List.mem_cons.mp hmem with heq | hmem'
    · obtain ⟨hp, hh⟩ := Prod.mk.injEq .. ▸ heq
      subst hp hh
      simp
    · have hqp : ¬q = p := by
        intro hqp
        subst hqp
        have : q ∈ rest.map Prod.fst := List.mem_map.mpr ⟨(q, h), hmem', rfl⟩
        exact (List.nodup_cons.mp hnd).1 this
      rw [if_neg hqp, ← read_file_hash_some]
      exact ih (List.nodup_cons.mp hnd).2
        (fun x hx => hfree x (List.mem_cons_of_mem _ hx)) hmem'

/-- Counterexample for C4 as stated: the single-entry mapping with path `"p"`
(colon- and newline-free, satisfying the claim's hypothesis) and hash `"h:x"`.
The saved line is `h:x:p`; looking the path up again returns `None`, not the
written hash, because the stored hash itself contains `':'`. -/
theorem c4_counterexample :
    read_file_hash (some (write_file_hash [(['p'], "h:x".toList)])) ['p'] ≠
      .ok (some "h:x".toList) ∧
    ':' ∉ (['p'] : List Char) ∧ '\n' ∉ (['p'] : List Char) := by
  constructor
  · decide
  · constructor <;> decide

/-- Witness for C4 (amended): the spec's own round-trip example, entries
`("x.md", "h1")` and `("y/z.md", "h2")`. -/
theorem c4_witness :
    read_file_hash
      (some (write_file_hash [("x.md".toList, "h1".toList), ("y/z.md".toList, "h2".toList)]))
      "y/z.md".toList = .ok (some "h2".toList) :=
  c4_round_trip _ (by decide) (by decide) _ _ (by decide)

/-! ## Supporting lemmas on the processing loop -/

theorem processLoop_append (canon : List Char → Option (List Char))
    (readF : List Char → Option (List Nat)) (sha : Option (List Char))
    (root : List Char) (xs ys : List (List Char)) :
    processLoop canon readF sha root (xs ++ ys) =
      match processLoop canon readF sha root xs with
      | .error e => .error e
      | .ok (o1, h1, w1) =>
        match processLoop canon readF sha root ys with
        | .error e => .error e
        | .ok (o2, h2, w2) => .ok (o1 ++ o2, h1 ++ h2, w1 ++ w2) := by
  induction xs with
  | nil =>
    cases hy : processLoop canon readF sha root ys with
    | error e => simp [processLoop, hy]
    | ok v =>
      obtain ⟨o2, h2, w2⟩ := v
      simp [processLoop, hy]
  | cons f xs ih =>
    simp only [List.cons_append, processLoop, List.append_eq]
    cases hd : processDoc canon readF sha root f with
    | error e => rfl
    | ok v =>
      obtain ⟨out, h, rendered⟩ := v
      rw [ih]
      cases hx : processLoop canon readF sha root xs with
      | error e => rfl
      | ok vx =>
        obtain ⟨o1, h1, w1⟩ := vx
        cases hy : processLoop canon readF sha root ys with
        | error e => rfl
        | ok vy =>
          obtain ⟨o2, h2, w2⟩ := vy
          cases rendered <;> simp

/-! ## Claim C1 -/

/-- C1 (amended): a per-document failure is NOT isolated: if every document
before `p` processes successfully and reading `p`'s source file fails (e.g.
the file was deleted between discovery and read), the whole run aborts with
that single error — the documents after `p` in iteration order are never
processed, no output list is produced, and the updated ledger is not written.
(The documents before `p` have already had their outputs written to disk by
the time the loop aborts.) -/
theorem c1_failure_aborts_run (canon : List Char → Option (List Char))
    (readF : List Char → Option (List Nat)) (sha : Option (List Char))
    (root p : List Char) (pre post : List (List Char))
    (hpre : ∃ a, processLoop canon readF sha root pre = .ok a)
    (hp : readF p = none) :
    read_content_from_current_paths canon readF sha root (pre ++ p :: post) =
      .error (RunError.readFail p) := by
  obtain ⟨⟨o1, h1, w1⟩, ha⟩ := hpre
  unfold read_content_from_current_paths
  rw [processLoop_append, ha]
  simp [processLoop, processDoc, hp]

/-- Counterexample for C1 as stated: two discovered documents; reading the
first fails while the second is perfectly readable.  The claim demands that
the run still produce the second document's output and report one failure;
instead the whole run returns a single fatal error and produces nothing — the
sibling document is never processed. -/
theorem c1_counterexample :
    read_content_from_current_paths (fun s => some s)
      (fun s => if s = "/r/a.md".toList then none else some []) none "/r".toList
      ["/r/a.md".toList, "/r/b.md".toList] = .error (RunError.readFail "/r/a.md".toList) := by
  decide

/-- Witness for C1 (amended): empty prefix, one unreadable document, one
sibling after it. -/
theorem c1_witness :
    read_content_from_current_paths (fun s => some s) (fun _ => none) none "/r".toList
      ["/r/a.md".toList, "/r/b.md".toList] = .error (RunError.readFail "/r/a.md".toList) :=
  c1_failure_aborts_run (fun s => some s) (fun _ => none) none "/r".toList
    "/r/a.md".toList [] ["/r/b.md".toList] ⟨([], [], []), rfl⟩ rfl

/-! ## Claim C5 -/

/-- C5 (amended): an empty discovered document set is NOT an error — there is
no `EmptyInput` failure anywhere in the build.  For every filesystem state the
run over zero inputs completes successfully, produces no outputs and writes an
empty ledger. -/
theorem c5_empty_input_not_error (canon : List Char → Option (List Char))
    (readF : List Char → Option (List Nat)) (sha : Option (List Char))
    (root : List Char) :
    read_content_from_current_paths canon readF sha root [] = .ok ⟨[], [], [], []⟩ := rfl

/-- Counterexample for C5 as stated: discovery on an existing directory with
no markdown files succeeds with an empty input set (clearing the previous
one), and the build over that empty set completes with `Ok`, not with an
`EmptyInput` error. -/
theorem c5_counterexample :
    read_from_directory true [] ["old.md".toList] = ([], .ok ()) ∧
    read_content_from_current_paths (fun s => some s) (fun _ => some []) none
      "in".toList [] = .ok ⟨[], [], [], []⟩ := by
  constructor
  · decide
  · decide

/-- Witness for C5 (amended): the empty-input run evaluated at a concrete
filesystem state. -/
theorem c5_witness :
    read_content_from_current_paths (fun s => some s) (fun _ => some ([] : List Nat)) none
      "/x".toList [] = .ok ⟨[], [], [], []⟩ :=
  c5_empty_input_not_error (fun s => some s) (fun _ => some ([] : List Nat)) none "/x".toList

/-! ## Claim C3 -/

/-- C3: evaluation of the path mapping at the failing input.  The derivation
of the output path is a plain string `replace` of the canonicalized root (plus
separator) by `""`, which removes EVERY occurrence, not only the leading one:
for input root `/ab` the document `/ab/x/ab/y.md` (i.e. `R/a/b.md` with
`a = x/ab`, `b = y`) is mapped to `xy.html` instead of the claimed
`x/ab/y.html`.  At inputs where the root string does not recur the claimed
mapping is produced (third conjunct). -/
theorem c3_path_mapping_eval :
    mapOutput "/ab/x/ab/y.md".toList "/ab".toList = "xy.html".toList ∧
    mapOutput "/ab/x/ab/y.md".toList "/ab".toList ≠ "x/ab/y.html".toList ∧
    mapOutput "/r/a/b.md".toList "/r".toList = "a/b.html".toList := by
  refine ⟨by decide, by decide, by decide⟩

/-! ## Claim C10 -/

theorem pushLoop_all_some (paths : List (List Char)) :
    ∀ acc, pushLoop acc (paths.map some) = (acc ++ paths, .ok ()) := by
  induction paths with
  | nil => intro acc; simp [pushLoop]
  | cons p ps ih =>
    intro acc
    simp only [List.map_cons, pushLoop]
    rw [ih (acc ++ [p])]
    simp

/-- C10: `read_from_directory` clears the previously discovered inputs before
gathering new ones: whatever the discovered set `st` left by an earlier call
(e.g. on a directory `d1`), a successful call on a directory whose glob yields
`paths2` leaves the discovered set equal to exactly `paths2` — no
accumulation across calls. -/
theorem c10_discovery_clears_state (st paths2 : List (List Char)) :
    read_from_directory true (paths2.map some) st = (paths2, .ok ()) := by
  unfold read_from_directory
  rw [show (!true) = false from rfl]
  simp only [Bool.false_eq_true, if_false]
  rw [pushLoop_all_some paths2 []]
  simp

/-- Witness for C10: a prior discovered set `a.md` is replaced, not extended,
by a discovery that finds exactly `b.md`. -/
theorem c10_witness :
    read_from_directory true (["b.md".toList].map some) ["a.md".toList] =
      (["b.md".toList], .ok ()) :=
  c10_discovery_clears_state ["a.md".toList] ["b.md".toList]

/-! ## Supporting lemmas on the hash rendering -/

theorem beBytes_length (k : Nat) : ∀ v, (beBytes k v).length = k := by
  induction k with
  | zero => intro v; rfl
  | succ k ih => intro v; simp [beBytes, ih]

theorem beBytes_lt (k : Nat) : ∀ v, ∀ b ∈ beBytes k v, b < 256 := by
  induction k with
  | zero => intro v b hb; cases hb
  | succ k ih =>
    intro v b hb
    rcases List.mem_cons.mp hb with hb | hb
    · exact hb ▸ Nat.mod_lt _ (by norm_num)
    · exact ih v b hb

theorem sha1_length (msg : List Nat) : (sha1 msg).length = 20 := by
  simp [sha1, beBytes_length]

theorem sha1_bytes_lt (msg : List Nat) : ∀ b ∈ sha1 msg, b < 256 := by
  intro b hb
  simp only [sha1, List.mem_append] at hb
  rcases hb with ((((h | h) | h) | h) | h) <;> exact beBytes_lt 4 _ b h

theorem hexDigit_mem (n : Nat) (h : n < 16) :
    hexDigit n ∈ "0123456789abcdef".toList := by
  interval_cases n <;> decide

theorem hexMin_length_bounds (b : Nat) :
    1 ≤ (hexMin b).length ∧ (hexMin b).length ≤ 2 := by
  unfold hexMin
  split <;> simp

theorem hexMin_mem_hex (b : Nat) (hb : b < 256) :
    ∀ c ∈ hexMin b, c ∈ "0123456789abcdef".toList := by
  intro c hc
  unfold hexMin at hc
  split at hc
  · rcases List.mem_singleton.mp hc with rfl
    exact hexDigit_mem b (by omega)
  · rcases List.mem_cons.mp hc with rfl | hc
    · exact hexDigit_mem _ (Nat.div_lt_of_lt_mul (by omega))
    · rcases List.mem_singleton.mp hc with rfl
      exact hexDigit_mem _ (Nat.mod_lt _ (by norm_num))

theorem flatten_hexMin_length_bounds (bs : List Nat) :
    bs.length ≤ ((bs.map hexMin).flatten).length ∧
      ((bs.map hexMin).flatten).length ≤ 2 * bs.length := by
  induction bs with
  | nil => simp
  | cons b bs ih =>
    have hb := hexMin_length_bounds b
    simp only [List.map_cons, List.flatten_cons, List.length_append, List.length_cons]
    omega

/-! ## Claim C6 -/

/-- C6 (amended): the computed content hash is rendered as a lowercase
hexadecimal string, but NOT at fixed width: each digest byte is rendered with
`format!("\x7b:x\x7d", ..)`, i.e. with minimal digits and no zero padding, so a
byte below 16 contributes a single digit.  For every input byte sequence the
rendered hash consists solely of lowercase hex digits and its length lies
between 20 and 40 characters, varying with the digest. -/
theorem c6_hash_rendering (content : List Nat) :
    20 ≤ (get_file_hash content).length ∧ (get_file_hash content).length ≤ 40 ∧
      ∀ c ∈ get_file_hash content, c ∈ "0123456789abcdef".toList := by
  have hlen := sha1_length content
  have hfl := flatten_hexMin_length_bounds (sha1 content)
  refine ⟨by rw [get_file_hash]; omega, by rw [get_file_hash]; omega, ?_⟩
  intro c hc
  rw [get_file_hash] at hc
  obtain ⟨l, hl, hcl⟩ := List.mem_flatten.mp hc
  obtain ⟨b, hb, rfl⟩ := List.mem_map.mp hl
  exact hexMin_mem_hex b (sha1_bytes_lt content b hb) c hcl

/-- Counterexample for C6 as stated: the hash is not fixed-width and bytes are
not always rendered as two digits.  The digest of the empty file contains
three bytes below 16 and renders to 37 characters, while the digest of the
one-byte file `"a"` renders to 40 characters. -/
theorem c6_counterexample :
    (get_file_hash []).length = 37 ∧ (get_file_hash [97]).length = 40 := by
  constructor
  · decide
  · decide

/-- Witness for C6 (amended): the bounds and the hex-digit property evaluated
on the empty input (its first rendered digit is `'d'`). -/
theorem c6_witness :
    20 ≤ (get_file_hash []).length ∧ ('d' ∈ "0123456789abcdef".toList) :=
  ⟨(c6_hash_rendering []).1, (c6_hash_rendering []).2.2 'd' (by decide)⟩

/-! ## Claim C7 -/

theorem liList_all (outs : List (List Char)) (h : ∀ o ∈ outs, fileName o ≠ []) :
    liList outs = some ((outs.map liHtml).flatten) := by
  induction outs with
  | nil => rfl
  | cons o os ih =>
    have ho : liItem o = some (liHtml o) := by
      unfold liItem
      rw [if_neg (h o (List.mem_cons_self o os))]
    simp only [liList, ho, ih fun x hx => h x (List.mem_cons_of_mem o hx),
      List.map_cons, List.flatten_cons]

/-- C7: when `outputRoot/index.html` already exists, `create_index_tree`
changes nothing (`.ok none`); when it does not exist, it writes exactly the
fixed template followed by one `<li><a href="{path}">{base name}</a></li>`
item per collected output path, in order.  (Collected output paths always
carry a non-empty final component — they end in `.html` — which is the stated
hypothesis.) -/
theorem c7_index_generation (template : List Char) (outs : List (List Char))
    (h : ∀ o ∈ outs, fileName o ≠ []) :
    create_index_tree true template outs = .ok none ∧
    create_index_tree false template outs =
      .ok (some (template ++ (outs.map liHtml).flatten)) := by
  refine ⟨rfl, ?_⟩
  simp [create_index_tree, liList_all outs h]

/-- Witness for C7: the spec's index example, outputs `a.html` and
`b/c.html` under template `"T"`. -/
theorem c7_witness :
    create_index_tree true "T".toList ["a.html".toList, "b/c.html".toList] = .ok none ∧
    create_index_tree false "T".toList ["a.html".toList, "b/c.html".toList] =
      .ok (some ("T".toList ++ ((["a.html".toList, "b/c.html".toList]).map liHtml).flatten)) :=
  c7_index_generation "T".toList ["a.html".toList, "b/c.html".toList] (by decide)

/-! ## Claim C9 -/

theorem processDoc_ok_out (canon : List Char → Option (List Char))
    (readF : List Char → Option (List Nat)) (sha : Option (List Char))
    (root f o h : List Char) (b : Bool)
    (e : processDoc canon readF sha root f = .ok (o, h, b)) :
    ∃ fileN rootN, canon f = some fileN ∧ canon root = some rootN ∧
      o = mapOutput fileN rootN := by
  unfold processDoc at e
  split at e
  · cases e
  next content hrf =>
    split at e
    · cases e
    next fileN hcf =>
      split at e
      · cases e
      next rootN hcr =>
        split at e
        · cases e
        · split at e
          · cases e
          · simp only [Except.ok.injEq, Prod.mk.injEq] at e
            exact ⟨fileN, rootN, hcf, hcr, e.1.symm⟩
          · simp only [Except.ok.injEq, Prod.mk.injEq] at e
            exact ⟨fileN, rootN, hcf, hcr, e.1.symm⟩

theorem processDoc_out_agree (canon : List Char → Option (List Char))
    (readF : List Char → Option (List Nat)) (sha sha' : Option (List Char))
    (root f o o' h h' : List Char) (b b' : Bool)
    (e1 : processDoc canon readF sha root f = .ok (o, h, b))
    (e2 : processDoc canon readF sha' root f = .ok (o', h', b')) : o = o' := by
  obtain ⟨fN, rN, hcf, hcr, rfl⟩ := processDoc_ok_out canon readF sha root f o h b e1
  obtain ⟨fN', rN', hcf', hcr', rfl⟩ := processDoc_ok_out canon readF sha' root f o' h' b' e2
  rw [hcf] at hcf'
  rw [hcr] at hcr'
  injection hcf' with hf
  injection hcr' with hr
  rw [hf, hr]

theorem processLoop_ok_shape (canon : List Char → Option (List Char))
    (readF : List Char → Option (List Nat)) (sha : Option (List Char))
    (root : List Char) :
    ∀ (inputs : List (List Char)) (outs : List (List Char))
      (hs : List (List Char × List Char)) (ws : List (List Char)),
      processLoop canon readF sha root inputs = .ok (outs, hs, ws) →
        outs.length = inputs.length ∧ ws.Sublist outs := by
  intro inputs
  induction inputs with
  | nil =>
    intro outs hs ws h
    obtain ⟨rfl, rfl, rfl⟩ : outs = [] ∧ hs = [] ∧ ws = [] := by
      simpa [processLoop] using h.symm
    simp
  | cons f fs ih =>
    intro outs hs ws h
    simp only [processLoop] at h
    cases hd : processDoc canon readF sha root f with
    | error e => rw [hd] at h; cases h
    | ok v =>
      obtain ⟨out, hh, rendered⟩ := v
      rw [hd] at h
      cases hx : processLoop canon readF sha root fs with
      | error e => rw [hx] at h; cases h
      | ok vx =>
        obtain ⟨outs2, hs2, ws2⟩ := vx
        rw [hx] at h
        obtain ⟨rfl, -, rfl⟩ : outs = out :: outs2 ∧ hs = (f, hh) :: hs2 ∧
            ws = (if rendered then out :: ws2 else ws2) := by
          simpa using h.symm
        obtain ⟨hlen, hsub⟩ := ih outs2 hs2 ws2 hx
        refine ⟨by simp [hlen], ?_⟩
        cases rendered
        · simpa using hsub.cons out
        · simpa using hsub.cons₂ out

theorem processLoop_outs_ledger_indep (canon : List Char → Option (List Char))
    (readF : List Char → Option (List Nat)) (sha sha' : Option (List Char))
    (root : List Char) :
    ∀ (inputs : List (List Char)) (o1 o2 : List (List Char))
      (h1 h2 : List (List Char × List Char)) (w1 w2 : List (List Char)),
      processLoop canon readF sha root inputs = .ok (o1, h1, w1) →
        processLoop canon readF sha' root inputs = .ok (o2, h2, w2) → o1 = o2 := by
  intro inputs
  induction inputs with
  | nil =>
    intro o1 o2 h1 h2 w1 w2 e1 e2
    obtain ⟨rfl, -, -⟩ : o1 = [] ∧ h1 = [] ∧ w1 = [] := by
      simpa [processLoop] using e1.symm
    obtain ⟨rfl, -, -⟩ : o2 = [] ∧ h2 = [] ∧ w2 = [] := by
      simpa [processLoop] using e2.symm
    rfl
  | cons f fs ih =>
    intro o1 o2 h1 h2 w1 w2 e1 e2
    simp only [processLoop] at e1 e2
    cases hd1 : processDoc canon readF sha root f with
    | error e => rw [hd1] at e1; cases e1
    | ok v1 =>
      obtain ⟨out1, hh1, r1⟩ := v1
      rw [hd1] at e1
      cases hd2 : processDoc canon readF sha' root f with
      | error e => rw [hd2] at e2; cases e2
      | ok v2 =>
        obtain ⟨out2, hh2, r2⟩ := v2
        rw [hd2] at e2
        cases hx1 : processLoop canon readF sha root fs with
        | error e => rw [hx1] at e1; cases e1
        | ok vx1 =>
          obtain ⟨os1, hs1, ws1⟩ := vx1
          rw [hx1] at e1
          cases hx2 : processLoop canon readF sha' root fs with
          | error e => rw [hx2] at e2; cases e2
          | ok vx2 =>
            obtain ⟨os2, hs2, ws2⟩ := vx2
            rw [hx2] at e2
            obtain ⟨rfl, -, -⟩ : o1 = out1 :: os1 ∧ h1 = (f, hh1) :: hs1 ∧
                w1 = (if r1 then out1 :: ws1 else ws1) := by simpa using e1.symm
            obtain ⟨rfl, -, -⟩ : o2 = out2 :: os2 ∧ h2 = (f, hh2) :: hs2 ∧
                w2 = (if r2 then out2 :: ws2 else ws2) := by simpa using e2.symm
            rw [processDoc_out_agree canon readF sha sha' root f out1 out2 hh1 hh2 r1 r2 hd1 hd2,
              ih os1 os2 hs1 hs2 ws1 ws2 hx1 hx2]

/-- C9: in every successful run, the collected output-path list has exactly
one entry per discovered document; the list of output files actually
(re)rendered this run is a sublist of it (FRESH documents contribute without
being re-rendered); and the collected list does not depend on the ledger
state at all — two successful runs over the same inputs with different
ledgers collect identical output paths.  Hence the fallback index lists all
successfully processed documents, not only the re-rendered ones. -/
theorem c9_output_paths_invariant (canon : List Char → Option (List Char))
    (readF : List Char → Option (List Nat)) (sha sha' : Option (List Char))
    (root : List Char) (inputs : List (List Char)) (r r' : RunResult)
    (h : read_content_from_current_paths canon readF sha root inputs = .ok r)
    (h' : read_content_from_current_paths canon readF sha' root inputs = .ok r') :
    r.outputPaths.length = inputs.length ∧ r.written.Sublist r.outputPaths ∧
      r.outputPaths = r'.outputPaths := by
  unfold read_content_from_current_paths at h h'
  cases hp : processLoop canon readF sha root inputs with
  | error e => rw [hp] at h; cases h
  | ok v =>
    obtain ⟨outs, hs, ws⟩ := v
    rw [hp] at h
    cases hp' : processLoop canon readF sha' root inputs with
    | error e => rw [hp'] at h'; cases h'
    | ok v' =>
      obtain ⟨outs', hs', ws'⟩ := v'
      rw [hp'] at h'
      have hr : r = ⟨outs, hs, ws, write_file_hash hs⟩ := by
        cases h; rfl
      have hr' : r' = ⟨outs', hs', ws', write_file_hash hs'⟩ := by
        cases h'; rfl
      obtain ⟨hlen, hsub⟩ := processLoop_ok_shape canon readF sha root inputs outs hs ws hp
      subst hr hr'
      exact ⟨hlen, hsub,
        processLoop_outs_ledger_indep canon readF sha sha' root inputs
          outs outs' hs hs' ws ws' hp hp'⟩

/-- Witness for C9: a one-document run executed once with a missing ledger
and once with an unrelated ledger; both runs collect the same single output
path. -/
theorem c9_witness :
    (RunResult.mk ["a.html".toList]
        [("/r/a.md".toList, "da39a3ee5e6b4bd3255bfef95601890afd879".toList)]
        ["a.html".toList]
        "da39a3ee5e6b4bd3255bfef95601890afd879:/r/a.md\n".toList).outputPaths.length =
      (["/r/a.md".toList]).length ∧
    (RunResult.mk ["a.html".toList]
        [("/r/a.md".toList, "da39a3ee5e6b4bd3255bfef95601890afd879".toList)]
        ["a.html".toList]
        "da39a3ee5e6b4bd3255bfef95601890afd879:/r/a.md\n".toList).written.Sublist
      (RunResult.mk ["a.html".toList]
        [("/r/a.md".toList, "da39a3ee5e6b4bd3255bfef95601890afd879".toList)]
        ["a.html".toList]
        "da39a3ee5e6b4bd3255bfef95601890afd879:/r/a.md\n".toList).outputPaths ∧
    (RunResult.mk ["a.html".toList]
        [("/r/a.md".toList, "da39a3ee5e6b4bd3255bfef95601890afd879".toList)]
        ["a.html".toList]
        "da39a3ee5e6b4bd3255bfef95601890afd879:/r/a.md\n".toList).outputPaths =
      (RunResult.mk ["a.html".toList]
        [("/r/a.md".toList, "da39a3ee5e6b4bd3255bfef95601890afd879".toList)]
        ["a.html".toList]
        "da39a3ee5e6b4bd3255bfef95601890afd879:/r/a.md\n".toList).outputPaths :=
  c9_output_paths_invariant (fun s => some s) (fun _ => some ([] : List Nat)) none
    (some "h:q\n".toList) "/r".toList ["/r/a.md".toList] _ _ (by decide) (by decide)

end Wiki
